import Mathlib

/-!
Verification development for the nodetool-registry release tooling.

The Python sources are shallowly embedded:

* `src/release/release.py` — the version-patching functions
  (`update_pyproject_version`, `update_copilot_core_ref`,
  `update_nodetool_core_dependency`), the workflow poller
  (`get_release_run`, `check_workflow_completed`, `wait_for_repos`),
  the per-repository driver skeleton (`process_repo`) and the
  version-tag gate at the top of `main`.
* `src/scripts/registry_utils.py` — `parse_version`.
* `src/scripts/build_index.py` — the release filtering/sorting and
  wheel collection of `NodeToolRegistryBuilder.generate_package_page`.

File contents are modelled as lists of lines, each line a `List Char`,
for the two `re.MULTILINE` line-anchored patchers;
`update_nodetool_core_dependency` instead works on the full character
sequence, because its pattern `[^"]*` also matches newlines.
Subprocess and network results are passed in as explicit arguments.
-/

namespace NodetoolRegistry

/-- Python `\s` restricted to characters that can occur inside one line
(`'\n'` never occurs inside a line of a split file). -/
def isPySpace (c : Char) : Bool :=
  c = ' ' || c = '\t' || c = '\r' || c = '\x0b' || c = '\x0c'

/-- Returns `some r` when `l = pat ++ r`, otherwise `none`; used to embed the
literal parts of the source regexes. -/
def stripLead : List Char → List Char → Option (List Char)
  | [], l => some l
  | _ :: _, [] => none
  | p :: ps, c :: cs => if c = p then stripLead ps cs else none

/-- Python `pat in s` (substring test). -/
def containsSub (pat : List Char) : List Char → Bool
  | [] => decide (pat = [])
  | c :: cs => (stripLead pat (c :: cs)).isSome || containsSub pat cs

/-! ### Helper lemmas about takeWhile, dropWhile and stripLead -/

theorem takeWhile_append_eq (p : Char → Bool) :
    ∀ (a b : List Char), (∀ c ∈ a, p c = true) →
      (∀ c t, b = c :: t → p c = false) → (a ++ b).takeWhile p = a := by
  intro a
  induction a with
  | nil =>
      intro b _ hb
      cases b with
      | nil => rfl
      | cons c t =>
          have hc : p c = false := hb c t rfl
          simp [List.takeWhile_cons, hc]
  | cons x xs ih =>
      intro b ha hb
      have hx : p x = true := ha x (List.mem_cons_self x xs)
      have : (xs ++ b).takeWhile p = xs :=
        ih b (fun c hc => ha c (List.mem_cons_of_mem x hc)) hb
      simp [List.takeWhile_cons, hx, this]

theorem dropWhile_append_eq (p : Char → Bool) :
    ∀ (a b : List Char), (∀ c ∈ a, p c = true) →
      (∀ c t, b = c :: t → p c = false) → (a ++ b).dropWhile p = b := by
  intro a
  induction a with
  | nil =>
      intro b _ hb
      cases b with
      | nil => rfl
      | cons c t =>
          have hc : p c = false := hb c t rfl
          simp [List.dropWhile_cons, hc]
  | cons x xs ih =>
      intro b ha hb
      have hx : p x = true := ha x (List.mem_cons_self x xs)
      have : (xs ++ b).dropWhile p = b :=
        ih b (fun c hc => ha c (List.mem_cons_of_mem x hc)) hb
      simp [List.dropWhile_cons, hx, this]

theorem stripLead_append (p : List Char) : ∀ r, stripLead p (p ++ r) = some r := by
  induction p with
  | nil => intro r; rfl
  | cons c cs ih => intro r; simp [stripLead, ih]

theorem mem_of_mem_takeWhile {p : Char → Bool} {x : Char} :
    ∀ {l : List Char}, x ∈ l.takeWhile p → p x = true := by
  intro l
  induction l with
  | nil => intro h; simp [List.takeWhile] at h
  | cons c cs ih =>
      intro h
      by_cases hc : p c = true
      · rw [List.takeWhile_cons_of_pos hc] at h
        rcases List.mem_cons.mp h with h1 | h2
        · exact h1 ▸ hc
        · exact ih h2
      · rw [List.takeWhile_cons_of_neg (by simpa using hc)] at h
        simp at h

theorem mem_of_mem_dropWhile {p : Char → Bool} {x : Char} :
    ∀ {l : List Char}, x ∈ l.dropWhile p → x ∈ l := by
  intro l
  induction l with
  | nil => intro h; simp [List.dropWhile] at h
  | cons c cs ih =>
      intro h
      by_cases hc : p c = true
      · rw [List.dropWhile_cons_of_pos hc] at h
        exact List.mem_cons_of_mem c (ih h)
      · rw [List.dropWhile_cons_of_neg (by simpa using hc)] at h
        exact h

theorem map_eq_self_of_mem {f : List Char → List Char} :
    ∀ {l : List (List Char)}, (∀ x ∈ l, f x = x) → l.map f = l := by
  intro l
  induction l with
  | nil => intro _; rfl
  | cons x xs ih =>
      intro h
      simp [h x (List.mem_cons_self x xs),
        ih (fun y hy => h y (List.mem_cons_of_mem x hy))]

theorem map_eq_map_of_mem {f g : List Char → List Char} :
    ∀ {l : List (List Char)}, (∀ x ∈ l, f x = g x) → l.map f = l.map g := by
  intro l
  induction l with
  | nil => intro _; rfl
  | cons x xs ih =>
      intro h
      simp [h x (List.mem_cons_self x xs),
        ih (fun y hy => h y (List.mem_cons_of_mem x hy))]

/-! ### Function `update_pyproject_version` (release.py lines 351-365)

Python:
```
pattern = re.compile(r'^(\s*)version = "[^"]+"', re.MULTILINE)
new_text, count = pattern.subn(f'\g<1>version = "{version}"', text)
if count > 0:
    file_path.write_text(new_text)
    return True
return False
```
-/

/-- The literal part `version = "` of the pyproject pattern. -/
def versionKey : List Char := ['v', 'e', 'r', 's', 'i', 'o', 'n', ' ', '=', ' ', '"']

/-- Match one line against `^(\s*)version = "[^"]+"`: returns the leading
whitespace, the (nonempty, quote-free) old version and the remainder of
the line after the closing quote. -/
def matchVersionLine (line : List Char) : Option (List Char × List Char × List Char) :=
  match stripLead versionKey (line.dropWhile isPySpace) with
  | none => none
  | some after =>
    match after.dropWhile (fun c => !(c = '"')) with
    | '"' :: rest =>
        if after.takeWhile (fun c => !(c = '"')) = [] then none
        else some (line.takeWhile isPySpace, after.takeWhile (fun c => !(c = '"')), rest)
    | _ => none

/-- The substitution `\g<1>version = "{version}"` applied to one line. -/
def patchVersionLine (version : List Char) (line : List Char) : List Char :=
  match matchVersionLine line with
  | some (ws, _, rest) => ws ++ versionKey ++ version ++ '"' :: rest
  | none => line

/-- Embeds `update_pyproject_version` on the file content (as lines): the new
content after the call, and the returned boolean.  The boolean is
`count > 0` — the source does not compare the new text with the old. -/
def update_pyproject_version (lines : List (List Char)) (version : List Char) :
    List (List Char) × Bool :=
  if lines.any (fun l => (matchVersionLine l).isSome) then
    (lines.map (patchVersionLine version), true)
  else (lines, false)

/-! ### Function `update_copilot_core_ref` (release.py lines 368-380)

Python:
```
pattern = re.compile(r"^(\s*NODETOOL_CORE_REF:\s*)(\S+)(\s*)$", re.MULTILINE)
new_text, count = pattern.subn(rf"\1{version_tag}\3", text)
if count > 0 and new_text != text:
    file_path.write_text(new_text)
    return True
return False
```
-/

/-- The literal `NODETOOL_CORE_REF:` of the copilot-workflow pattern. -/
def copilotKey : List Char :=
  ['N', 'O', 'D', 'E', 'T', 'O', 'O', 'L', '_', 'C', 'O', 'R', 'E', '_', 'R', 'E', 'F', ':']

/-- Match one line against `^(\s*NODETOOL_CORE_REF:\s*)(\S+)(\s*)$`:
returns group 1 (whitespace, key, whitespace), group 2 (the nonempty
non-whitespace token) and group 3 (trailing whitespace). -/
def matchCoreRefLine (line : List Char) : Option (List Char × List Char × List Char) :=
  match stripLead copilotKey (line.dropWhile isPySpace) with
  | none => none
  | some after =>
    if (after.dropWhile isPySpace).takeWhile (fun c => !(isPySpace c)) = [] then none
    else if ((after.dropWhile isPySpace).dropWhile (fun c => !(isPySpace c))).all isPySpace then
      some (line.takeWhile isPySpace ++ copilotKey ++ after.takeWhile isPySpace,
            (after.dropWhile isPySpace).takeWhile (fun c => !(isPySpace c)),
            (after.dropWhile isPySpace).dropWhile (fun c => !(isPySpace c)))
    else none

/-- The substitution `\1{version_tag}\3` applied to one line. -/
def patchCoreRefLine (tag : List Char) (line : List Char) : List Char :=
  match matchCoreRefLine line with
  | some (pre, _, trail) => pre ++ tag ++ trail
  | none => line

/-- Embeds `update_copilot_core_ref` on the file content (as lines): new content
and returned boolean.  Here the source does guard with
`count > 0 and new_text != text`. -/
def update_copilot_core_ref (lines : List (List Char)) (tag : List Char) :
    List (List Char) × Bool :=
  if (lines.any fun l => (matchCoreRefLine l).isSome)
      && !(decide (lines.map (patchCoreRefLine tag) = lines)) then
    (lines.map (patchCoreRefLine tag), true)
  else (lines, false)

example :
    update_pyproject_version [('v' :: 'e' :: 'r' :: 's' :: 'i' :: 'o' :: 'n' :: ' ' :: '=' :: ' ' :: '"' :: '0' :: '"' :: [])]
      ['1'] = ([('v' :: 'e' :: 'r' :: 's' :: 'i' :: 'o' :: 'n' :: ' ' :: '=' :: ' ' :: '"' :: '1' :: '"' :: [])], true) := by decide

example :
    update_copilot_core_ref ["  NODETOOL_CORE_REF: v0.1".toList] "v0.2".toList
      = (["  NODETOOL_CORE_REF: v0.2".toList], true) := by decide

example :
    update_copilot_core_ref ["  NODETOOL_CORE_REF: v0.2".toList] "v0.2".toList
      = (["  NODETOOL_CORE_REF: v0.2".toList], false) := by decide

/-! ### Idempotence lemmas for the two patchers -/

theorem matchVersionLine_rebuild (ws version rest : List Char)
    (hws : ∀ c ∈ ws, isPySpace c = true) (hv0 : version ≠ [])
    (hv1 : '"' ∉ version) :
    matchVersionLine (ws ++ (versionKey ++ (version ++ '"' :: rest)))
      = some (ws, version, rest) := by
  have hkey : ∀ c t, versionKey ++ (version ++ '"' :: rest) = c :: t → isPySpace c = false := by
    intro c t h
    have : c = 'v' := by
      simpa [versionKey] using congrArg (fun l => l.headD ' ') h.symm
    rw [this]; rfl
  have hdrop : (ws ++ (versionKey ++ (version ++ '"' :: rest))).dropWhile isPySpace
      = versionKey ++ (version ++ '"' :: rest) :=
    dropWhile_append_eq isPySpace ws _ hws hkey
  have htake : (ws ++ (versionKey ++ (version ++ '"' :: rest))).takeWhile isPySpace = ws :=
    takeWhile_append_eq isPySpace ws _ hws hkey
  have hvq : ∀ c ∈ version, (!(c = '"')) = true := by
    intro c hc
    have : c ≠ '"' := fun h => hv1 (h ▸ hc)
    simp [this]
  have hq : ∀ c t, ('"' : Char) :: rest = c :: t → (!(c = '"')) = false := by
    intro c t h
    cases h; simp
  have hdropq : (version ++ '"' :: rest).dropWhile (fun c => !(c = '"')) = '"' :: rest :=
    dropWhile_append_eq _ version _ hvq hq
  have htakeq : (version ++ '"' :: rest).takeWhile (fun c => !(c = '"')) = version :=
    takeWhile_append_eq _ version _ hvq hq
  unfold matchVersionLine
  rw [hdrop, stripLead_append]
  simp [hdropq, htakeq, htake, hv0]

theorem matchVersionLine_takeWhile {line ws body rest : List Char}
    (h : matchVersionLine line = some (ws, body, rest)) :
    ws = line.takeWhile isPySpace := by
  unfold matchVersionLine at h
  split at h
  · exact absurd h (by simp)
  · split at h
    · split at h
      · exact absurd h (by simp)
      · injection h with h1
        exact (congrArg Prod.fst h1).symm
    · exact absurd h (by simp)

theorem patchVersionLine_idem (version : List Char) (hv0 : version ≠ [])
    (hv1 : '"' ∉ version) (l : List Char) :
    patchVersionLine version (patchVersionLine version l) = patchVersionLine version l
      ∧ (matchVersionLine (patchVersionLine version l)).isSome
          = (matchVersionLine l).isSome := by
  cases h : matchVersionLine l with
  | none => simp [patchVersionLine, h]
  | some wbr =>
      obtain ⟨ws, body, rest⟩ := wbr
      have hws : ∀ c ∈ ws, isPySpace c = true := by
        intro c hc
        exact mem_of_mem_takeWhile (matchVersionLine_takeWhile h ▸ hc)
      have hre : matchVersionLine (ws ++ (versionKey ++ (version ++ '"' :: rest)))
          = some (ws, version, rest) := matchVersionLine_rebuild ws version rest hws hv0 hv1
      constructor
      · simp [patchVersionLine, h, List.append_assoc, hre]
      · simp [patchVersionLine, h, List.append_assoc, hre]

theorem matchCoreRefLine_rebuild (ws ws2 tag trail : List Char)
    (hws : ∀ c ∈ ws, isPySpace c = true) (hws2 : ∀ c ∈ ws2, isPySpace c = true)
    (htr : ∀ c ∈ trail, isPySpace c = true)
    (ht0 : tag ≠ []) (ht1 : ∀ c ∈ tag, isPySpace c = false) :
    matchCoreRefLine (ws ++ (copilotKey ++ (ws2 ++ (tag ++ trail))))
      = some (ws ++ (copilotKey ++ ws2), tag, trail) := by
  have hkey : ∀ c t, copilotKey ++ (ws2 ++ (tag ++ trail)) = c :: t → isPySpace c = false := by
    intro c t h
    have : c = 'N' := by
      simpa [copilotKey] using congrArg (fun l => l.headD ' ') h.symm
    rw [this]; rfl
  have hdrop : (ws ++ (copilotKey ++ (ws2 ++ (tag ++ trail)))).dropWhile isPySpace
      = copilotKey ++ (ws2 ++ (tag ++ trail)) :=
    dropWhile_append_eq isPySpace ws _ hws hkey
  have htake : (ws ++ (copilotKey ++ (ws2 ++ (tag ++ trail)))).takeWhile isPySpace = ws :=
    takeWhile_append_eq isPySpace ws _ hws hkey
  obtain ⟨c0, tag', rfl⟩ : ∃ c0 tag', tag = c0 :: tag' := by
    cases tag with
    | nil => exact absurd rfl ht0
    | cons c0 tag' => exact ⟨c0, tag', rfl⟩
  have htag : ∀ c t, (c0 :: tag') ++ trail = c :: t → isPySpace c = false := by
    intro c t h
    have hc : c = c0 := by
      simpa using congrArg (fun l => l.headD ' ') h.symm
    rw [hc]
    exact ht1 c0 (List.mem_cons_self c0 tag')
  have hdrop2 : (ws2 ++ ((c0 :: tag') ++ trail)).dropWhile isPySpace = (c0 :: tag') ++ trail :=
    dropWhile_append_eq isPySpace ws2 _ hws2 htag
  have htake2 : (ws2 ++ ((c0 :: tag') ++ trail)).takeWhile isPySpace = ws2 :=
    takeWhile_append_eq isPySpace ws2 _ hws2 htag
  have htagT : ∀ c ∈ c0 :: tag', (!(isPySpace c)) = true := by
    intro c hc; simp [ht1 c hc]
  have htrF : ∀ c t, trail = c :: t → (!(isPySpace c)) = false := by
    intro c t h
    have : isPySpace c = true := htr c (h ▸ List.mem_cons_self c t)
    simp [this]
  have htake3 : ((c0 :: tag') ++ trail).takeWhile (fun c => !(isPySpace c)) = c0 :: tag' :=
    takeWhile_append_eq _ _ _ htagT htrF
  have hdrop3 : ((c0 :: tag') ++ trail).dropWhile (fun c => !(isPySpace c)) = trail :=
    dropWhile_append_eq _ _ _ htagT htrF
  have hall : trail.all isPySpace = true := List.all_eq_true.mpr htr
  unfold matchCoreRefLine
  rw [hdrop, stripLead_append]
  simp only [List.append_assoc] at hdrop2 htake2 ⊢
  rw [hdrop2, htake2, htake3, hdrop3]
  simp only [List.cons_append] at htake
  simp [hall, htake]

theorem matchCoreRefLine_some {line pre tok trail : List Char}
    (h : matchCoreRefLine line = some (pre, tok, trail)) :
    ∃ ws ws2, pre = ws ++ (copilotKey ++ ws2) ∧ (∀ c ∈ ws, isPySpace c = true)
      ∧ (∀ c ∈ ws2, isPySpace c = true) ∧ (∀ c ∈ trail, isPySpace c = true)
      ∧ tok ≠ [] ∧ (∀ c ∈ tok, isPySpace c = false) := by
  unfold matchCoreRefLine at h
  split at h
  · exact absurd h (by simp)
  · rename_i after hafter
    split at h
    · exact absurd h (by simp)
    · split at h
      · rename_i hne hall
        injection h with h1
        injection h1 with hpre h23
        injection h23 with htok htrail
        refine ⟨line.takeWhile isPySpace, after.takeWhile isPySpace, ?_, ?_, ?_, ?_, ?_, ?_⟩
        · rw [← hpre]; simp [List.append_assoc]
        · intro c hc; exact mem_of_mem_takeWhile hc
        · intro c hc; exact mem_of_mem_takeWhile hc
        · intro c hc
          rw [← htrail] at hc
          exact List.all_eq_true.mp hall c hc
        · rw [← htok]; exact hne
        · intro c hc
          rw [← htok] at hc
          have := mem_of_mem_takeWhile hc
          simpa using this
      · exact absurd h (by simp)

theorem patchCoreRefLine_idem (tag : List Char) (ht0 : tag ≠ [])
    (ht1 : ∀ c ∈ tag, isPySpace c = false) (l : List Char) :
    patchCoreRefLine tag (patchCoreRefLine tag l) = patchCoreRefLine tag l := by
  cases h : matchCoreRefLine l with
  | none => simp [patchCoreRefLine, h]
  | some ptt =>
      obtain ⟨pre, tok, trail⟩ := ptt
      obtain ⟨ws, ws2, hpre, hws, hws2, htr, -, -⟩ := matchCoreRefLine_some h
      have hre : matchCoreRefLine (ws ++ (copilotKey ++ (ws2 ++ (tag ++ trail))))
          = some (ws ++ (copilotKey ++ ws2), tag, trail) :=
        matchCoreRefLine_rebuild ws ws2 tag trail hws hws2 htr ht0 ht1
      have hshape : pre ++ (tag ++ trail) = ws ++ (copilotKey ++ (ws2 ++ (tag ++ trail))) := by
        rw [hpre]; simp [List.append_assoc]
      simp only [patchCoreRefLine, h]
      rw [← List.append_assoc] at hshape
      simp only [List.append_assoc] at hshape ⊢
      rw [hshape, hre]
      simp [List.append_assoc]

theorem update_pyproject_twice (lines : List (List Char)) (version : List Char)
    (hv0 : version ≠ []) (hv1 : '"' ∉ version) :
    update_pyproject_version (update_pyproject_version lines version).1 version
      = update_pyproject_version lines version := by
  by_cases ha : lines.any (fun l => (matchVersionLine l).isSome) = true
  · have hU : update_pyproject_version lines version
        = (lines.map (patchVersionLine version), true) := by
      simp [update_pyproject_version, ha]
    have ha2 : (lines.map (patchVersionLine version)).any
        (fun l => (matchVersionLine l).isSome) = true := by
      obtain ⟨x, hx, hmx⟩ := List.any_eq_true.mp ha
      exact List.any_eq_true.mpr ⟨patchVersionLine version x, List.mem_map_of_mem _ hx, by
        rw [(patchVersionLine_idem version hv0 hv1 x).2]; exact hmx⟩
    have hmapmap : (lines.map (patchVersionLine version)).map (patchVersionLine version)
        = lines.map (patchVersionLine version) := by
      rw [List.map_map]
      exact map_eq_map_of_mem (fun x _ => (patchVersionLine_idem version hv0 hv1 x).1)
    rw [hU]
    simp [update_pyproject_version, ha2, hmapmap]
  · have hU : update_pyproject_version lines version = (lines, false) := by
      simp [update_pyproject_version]
      simpa using ha
    rw [hU, hU]

theorem update_copilot_twice (lines : List (List Char)) (tag : List Char)
    (ht0 : tag ≠ []) (ht1 : ∀ c ∈ tag, isPySpace c = false) :
    update_copilot_core_ref (update_copilot_core_ref lines tag).1 tag
      = ((update_copilot_core_ref lines tag).1, false) := by
  by_cases hc : ((lines.any fun l => (matchCoreRefLine l).isSome)
      && !(decide (lines.map (patchCoreRefLine tag) = lines))) = true
  · have hU : update_copilot_core_ref lines tag
        = (lines.map (patchCoreRefLine tag), true) := by
      simp only [update_copilot_core_ref]
      rw [if_pos hc]
    have hmapmap : (lines.map (patchCoreRefLine tag)).map (patchCoreRefLine tag)
        = lines.map (patchCoreRefLine tag) := by
      rw [List.map_map]
      exact map_eq_map_of_mem (fun x _ => patchCoreRefLine_idem tag ht0 ht1 x)
    rw [hU]
    simp [update_copilot_core_ref, hmapmap]
  · have hU : update_copilot_core_ref lines tag = (lines, false) := by
      simp only [update_copilot_core_ref]
      rw [if_neg (by simpa using hc)]
    rw [hU]
    simp only [update_copilot_core_ref]
    rw [if_neg (by simpa using hc)]

/-! ### Function `update_nodetool_core_dependency` (release.py lines 281-315)

Python:
```
if "nodetool-core" not in text: return False
pattern = re.compile(r'"nodetool-core[^"]*"')
def replacement(match):
    start = match.start()
    line_start = text.rfind("\n", 0, start) + 1
    line_end = text.find("\n", match.end())
    if line_end == -1: line_end = len(text)
    line = text[line_start:line_end]
    if re.search(r"^\s*name\s*=", line): return match.group(0)
    updated = True
    return f'"nodetool-core=={version}"'
new_text = pattern.sub(replacement, text)
if updated and new_text != text: ... return True
return False
```
The file content is kept as the full character sequence: `[^"]` also
matches `'\n'`, so a quoted specifier left unterminated on one line
extends a match across the following lines.  The scanner carries the
prefix of the current line before the scan position (`linePre`), which
decides the guard: `re.search(r"^\s*name\s*=", line)` has no
`re.MULTILINE`, so `^` anchors only at the start of the slice — the
start of the line containing `match.start()` — and the pattern's
characters (whitespace, `name`, `=`) can never cross the `'"'` that
begins the match, so the guard holds exactly when that line prefix is a
`name =` lead. -/

/-- The dependency name `nodetool-core`. -/
def coreName : List Char := ['n', 'o', 'd', 'e', 't', 'o', 'o', 'l', '-', 'c', 'o', 'r', 'e']

/-- Embeds `re.search(r"^\s*name\s*=", line)` on a line or line prefix:
it is the package's own `name = ...` declaration lead. -/
def isNameLine (line : List Char) : Bool :=
  match stripLead ['n', 'a', 'm', 'e'] (line.dropWhile isPySpace) with
  | none => false
  | some after =>
    match after.dropWhile isPySpace with
    | e :: _ => decide (e = '=')
    | [] => false

/-- The replacement text `"nodetool-core=={version}"`. -/
def coreReplacement (version : List Char) : List Char :=
  '"' :: coreName ++ '=' :: '=' :: version ++ ['"']

/-- Characters of `l` after its last newline: the prefix of the current
line at a scan position, recomputed after a match is consumed (the
match may contain newlines). -/
def afterLastNewline (l : List Char) : List Char :=
  ((l.reverse).takeWhile (fun c => !(c = '\n'))).reverse

/-- Embeds `pattern.sub(replacement, text)` for `"nodetool-core[^"]*"`:
scan the whole text; at each `'"'` heading `nodetool-core` with a later
closing quote (possibly on a later line — `[^"]` matches newlines),
either keep the match (when the current line's prefix `linePre` is a
`name =` lead) or emit the pin, resuming after the closing quote;
otherwise copy one character.  The boolean is the `updated` flag (some
replacement fired).  `fuel` only bounds the recursion: every step
consumes at least one character, so fuel at least the text length gives
the full scan. -/
def replaceCoreScan (version : List Char) : Nat → List Char → List Char → List Char × Bool
  | 0, _, l => (l, false)
  | _, _, [] => ([], false)
  | fuel + 1, linePre, c :: cs =>
    if c = '"' then
      match stripLead coreName cs with
      | some after =>
        match after.dropWhile (fun x => !(x = '"')) with
        | '"' :: rest =>
          if isNameLine linePre then
            ('"' :: (coreName ++ (after.takeWhile (fun x => !(x = '"')) ++ ('"' ::
                (replaceCoreScan version fuel
                  (afterLastNewline (linePre ++ ('"' :: (coreName
                    ++ (after.takeWhile (fun x => !(x = '"')) ++ ['"']))))) rest).1))),
             (replaceCoreScan version fuel
                (afterLastNewline (linePre ++ ('"' :: (coreName
                  ++ (after.takeWhile (fun x => !(x = '"')) ++ ['"']))))) rest).2)
          else
            (coreReplacement version ++
                (replaceCoreScan version fuel
                  (afterLastNewline (linePre ++ ('"' :: (coreName
                    ++ (after.takeWhile (fun x => !(x = '"')) ++ ['"']))))) rest).1,
             true)
        | _ =>
          ('"' :: (replaceCoreScan version fuel (linePre ++ ['"']) cs).1,
           (replaceCoreScan version fuel (linePre ++ ['"']) cs).2)
      | none =>
        ('"' :: (replaceCoreScan version fuel (linePre ++ ['"']) cs).1,
         (replaceCoreScan version fuel (linePre ++ ['"']) cs).2)
    else
      (c :: (replaceCoreScan version fuel
          (if c = '\n' then [] else linePre ++ [c]) cs).1,
       (replaceCoreScan version fuel
          (if c = '\n' then [] else linePre ++ [c]) cs).2)

/-- Embeds `update_nodetool_core_dependency` on the file text: the new
content and the returned boolean. -/
def update_nodetool_core_dependency (text : List Char) (version : List Char) :
    List Char × Bool :=
  if !(containsSub coreName text) then (text, false)
  else if (replaceCoreScan version text.length [] text).2
      && !(decide ((replaceCoreScan version text.length [] text).1 = text)) then
    ((replaceCoreScan version text.length [] text).1, true)
  else (text, false)

example :
    update_nodetool_core_dependency
      "dependencies = [\"nodetool-core>=0.1.0\"]".toList "1.2.3".toList
      = ("dependencies = [\"nodetool-core==1.2.3\"]".toList, true) := by decide

example :
    update_nodetool_core_dependency
      ("name = \"nodetool-core-extra\"".toList
        ++ '\n' :: "deps = [\"nodetool-core>=0.1\"]".toList) "1.2.3".toList
      = ("name = \"nodetool-core-extra\"".toList
        ++ '\n' :: "deps = [\"nodetool-core==1.2.3\"]".toList, true) := by decide

example :
    update_nodetool_core_dependency
      "dependencies = [\"nodetool-core==1.2.3\"]".toList "1.2.3".toList
      = ("dependencies = [\"nodetool-core==1.2.3\"]".toList, false) := by decide

/-- C4 counterexample: a quoted specifier left unterminated on one line
makes `[^"]*` run across the newline, so the match swallows the
following `name = "..."` declaration; the guard inspects only the line
containing the match start (not a name line here), so the substitution
fires and the name-declaration line is rewritten away — the result no
longer contains it, and the call reports a change. -/
theorem core_dep_rewrites_name_line :
    isNameLine "name = \"nodetool-core-extra\"".toList = true
    ∧ update_nodetool_core_dependency
        ("dependencies = [\"nodetool-core".toList
          ++ '\n' :: "name = \"nodetool-core-extra\"".toList) "1.2.3".toList
      = ("dependencies = [\"nodetool-core==1.2.3\"nodetool-core-extra\"".toList, true)
    ∧ containsSub "name = \"nodetool-core-extra\"".toList
        (update_nodetool_core_dependency
          ("dependencies = [\"nodetool-core".toList
            ++ '\n' :: "name = \"nodetool-core-extra\"".toList) "1.2.3".toList).1
      = false := by
  decide

/-! ### Helper lemmas for the whole-text scanner -/

theorem stripLead_eq_append : ∀ {p l r : List Char}, stripLead p l = some r → l = p ++ r := by
  intro p
  induction p with
  | nil =>
      intro l r h
      simp [stripLead] at h
      simp [h]
  | cons c cs ih =>
      intro l r h
      cases l with
      | nil => simp [stripLead] at h
      | cons x xs =>
          simp only [stripLead] at h
          split at h
          · rename_i hx
            rw [List.cons_append, ← ih h, hx]
          · exact absurd h (by simp)

theorem stripLead_split_newline : ∀ {p u s w : List Char}, '\n' ∉ p →
    stripLead p (u ++ '\n' :: s) = some w →
    ∃ u2, u = p ++ u2 ∧ w = u2 ++ '\n' :: s := by
  intro p
  induction p with
  | nil =>
      intro u s w _ h
      simp only [stripLead, Option.some.injEq] at h
      exact ⟨u, by simp, h.symm⟩
  | cons c cs ih =>
      intro u s w hp h
      cases u with
      | nil =>
          exfalso
          simp only [List.nil_append, stripLead] at h
          split at h
          · rename_i hc
            subst hc
            exact hp (List.mem_cons_self _ _)
          · exact absurd h (by simp)
      | cons x xs =>
          simp only [List.cons_append, stripLead] at h
          split at h
          · rename_i hx
            have hp2 : '\n' ∉ cs := fun hm => hp (List.mem_cons_of_mem _ hm)
            obtain ⟨u2, hu, hw⟩ := ih hp2 h
            refine ⟨u2, ?_, hw⟩
            rw [List.cons_append, ← hu, hx]
          · exact absurd h (by simp)

theorem dropWhile_not_eq_of_mem {c : Char} :
    ∀ {l : List Char}, c ∈ l → ∃ r, l.dropWhile (fun x => !(x = c)) = c :: r := by
  intro l
  induction l with
  | nil => intro h; simp at h
  | cons d l2 ih =>
      intro h
      by_cases hd : d = c
      · subst hd
        exact ⟨l2, by rw [List.dropWhile_cons_of_neg (by simp)]⟩
      · have hc2 : c ∈ l2 := by
          rcases List.mem_cons.mp h with h1 | h2
          · exact absurd h1.symm hd
          · exact h2
        obtain ⟨r, hr⟩ := ih hc2
        exact ⟨r, by rw [List.dropWhile_cons_of_pos (by simp [hd])]; exact hr⟩

theorem takeWhile_eq_self_of_forall (p : Char → Bool) :
    ∀ {l : List Char}, (∀ c ∈ l, p c = true) → l.takeWhile p = l := by
  intro l
  induction l with
  | nil => intro _; rfl
  | cons d l2 ih =>
      intro h
      rw [List.takeWhile_cons_of_pos (h d (List.mem_cons_self d l2)),
        ih (fun c hc => h c (List.mem_cons_of_mem d hc))]

theorem dropWhile_eq_nil_of_forall (p : Char → Bool) :
    ∀ {l : List Char}, (∀ c ∈ l, p c = true) → l.dropWhile p = [] := by
  intro l
  induction l with
  | nil => intro _; rfl
  | cons d l2 ih =>
      intro h
      rw [List.dropWhile_cons_of_pos (h d (List.mem_cons_self d l2))]
      exact ih (fun c hc => h c (List.mem_cons_of_mem d hc))

theorem takeWhile_append_all (p : Char → Bool) :
    ∀ (u v : List Char), (∀ c ∈ u, p c = true) →
      (u ++ v).takeWhile p = u ++ v.takeWhile p := by
  intro u
  induction u with
  | nil => intro v _; simp
  | cons d u2 ih =>
      intro v h
      rw [List.cons_append, List.takeWhile_cons_of_pos (h d (List.mem_cons_self d u2)),
        ih v (fun c hc => h c (List.mem_cons_of_mem d hc)), List.cons_append]

theorem dropWhile_append_all (p : Char → Bool) :
    ∀ (u v : List Char), (∀ c ∈ u, p c = true) →
      (u ++ v).dropWhile p = v.dropWhile p := by
  intro u
  induction u with
  | nil => intro v _; simp
  | cons d u2 ih =>
      intro v h
      rw [List.cons_append, List.dropWhile_cons_of_pos (h d (List.mem_cons_self d u2)),
        ih v (fun c hc => h c (List.mem_cons_of_mem d hc))]

theorem head_dropWhile_false (p : Char → Bool) :
    ∀ {l : List Char} {c : Char} {r : List Char}, l.dropWhile p = c :: r → p c = false := by
  intro l
  induction l with
  | nil => intro c r h; simp [List.dropWhile] at h
  | cons d l2 ih =>
      intro c r h
      by_cases hd : p d = true
      · rw [List.dropWhile_cons_of_pos hd] at h
        exact ih h
      · rw [List.dropWhile_cons_of_neg (by simpa using hd)] at h
        injection h with h1 _
        rw [← h1]
        simpa using hd

theorem afterLastNewline_of_not_mem {l : List Char} (h : '\n' ∉ l) :
    afterLastNewline l = l := by
  unfold afterLastNewline
  have he : l.reverse.takeWhile (fun c => !(c = '\n')) = l.reverse :=
    takeWhile_eq_self_of_forall _ (fun c hc => by
      have hcl : c ∈ l := List.mem_reverse.mp hc
      have hne : c ≠ '\n' := fun hq => h (hq ▸ hcl)
      simp [hne])
  rw [he, List.reverse_reverse]

/-- Every occurrence of a quoted `nodetool-core` opener inside `a` has a
closing quote later inside `a` (in particular no specifier of `a` runs
past its end into following lines). -/
def closesWithinB : List Char → Bool
  | [] => true
  | c :: cs =>
    (if c = '"' then
      match stripLead coreName cs with
      | some after => after.any (fun x => x = '"')
      | none => true
     else true)
    && closesWithinB cs

theorem closesWithinB_spec : ∀ (x y : List Char),
    closesWithinB (x ++ ('"' :: coreName) ++ y) = true → '"' ∈ y := by
  intro x
  induction x with
  | nil =>
      intro y h
      simp only [List.nil_append, List.cons_append, closesWithinB] at h
      rw [Bool.and_eq_true] at h
      have h2 : y.any (fun x => decide (x = '"')) = true := by
        simpa [stripLead_append] using h.1
      obtain ⟨c, hc, hc2⟩ := List.any_eq_true.mp h2
      have hcq : c = '"' := by simpa using hc2
      exact hcq ▸ hc
  | cons d x2 ih =>
      intro y h
      refine ih y ?_
      simp only [List.cons_append, closesWithinB] at h
      rw [Bool.and_eq_true] at h
      exact h.2

theorem isNameLine_decomp {x : List Char} (h : isNameLine x = true) :
    ∃ w1 w2 r, x = w1 ++ ('n' :: 'a' :: 'm' :: 'e' :: (w2 ++ '=' :: r))
      ∧ (∀ c ∈ w1, isPySpace c = true) ∧ (∀ c ∈ w2, isPySpace c = true) := by
  unfold isNameLine at h
  cases hs : stripLead ['n', 'a', 'm', 'e'] (x.dropWhile isPySpace) with
  | none => rw [hs] at h; simp at h
  | some after =>
      rw [hs] at h
      have h2 : (match after.dropWhile isPySpace with
          | e :: _ => decide (e = '=')
          | [] => false) = true := h
      cases hd : after.dropWhile isPySpace with
      | nil => rw [hd] at h2; simp at h2
      | cons e r =>
          rw [hd] at h2
          have he : e = '=' := of_decide_eq_true h2
          subst he
          have hx1 : x.dropWhile isPySpace = 'n' :: 'a' :: 'm' :: 'e' :: after := by
            have h2 := stripLead_eq_append hs
            simpa using h2
          refine ⟨x.takeWhile isPySpace, after.takeWhile isPySpace, r, ?_, ?_, ?_⟩
          · have hafter : after = after.takeWhile isPySpace ++ '=' :: r := by
              conv_lhs => rw [← List.takeWhile_append_dropWhile (p := isPySpace) (l := after)]
              rw [hd]
            conv_lhs => rw [← List.takeWhile_append_dropWhile (p := isPySpace) (l := x)]
            rw [hx1]
            conv_lhs => rw [hafter]
          · intro c hc; exact mem_of_mem_takeWhile hc
          · intro c hc; exact mem_of_mem_takeWhile hc

theorem isNameLine_rebuild (w1 w2 r : List Char)
    (h1 : ∀ c ∈ w1, isPySpace c = true) (h2 : ∀ c ∈ w2, isPySpace c = true) :
    isNameLine (w1 ++ ('n' :: 'a' :: 'm' :: 'e' :: (w2 ++ '=' :: r))) = true := by
  have hb : ∀ c t, ('n' :: 'a' :: 'm' :: 'e' :: (w2 ++ '=' :: r)) = c :: t →
      isPySpace c = false := by
    intro c t hct
    injection hct with hc _
    rw [← hc]
    rfl
  have hdrop : (w1 ++ ('n' :: 'a' :: 'm' :: 'e' :: (w2 ++ '=' :: r))).dropWhile isPySpace
      = 'n' :: 'a' :: 'm' :: 'e' :: (w2 ++ '=' :: r) := dropWhile_append_eq _ _ _ h1 hb
  have hb2 : ∀ c t, ('=' :: r) = c :: t → isPySpace c = false := by
    intro c t hct
    injection hct with hc _
    rw [← hc]
    rfl
  have hdrop2 : (w2 ++ '=' :: r).dropWhile isPySpace = '=' :: r :=
    dropWhile_append_eq _ _ _ h2 hb2
  have hsplit : ('n' :: 'a' :: 'm' :: 'e' :: (w2 ++ '=' :: r))
      = ['n', 'a', 'm', 'e'] ++ (w2 ++ '=' :: r) := rfl
  unfold isNameLine
  rw [hdrop, hsplit, stripLead_append]
  simp [hdrop2]

theorem append_eq_cons_split {u v p q : List Char} {c : Char}
    (hx : u ++ v = p ++ c :: q) (hc : c ∉ u) :
    ∃ p2, p = u ++ p2 ∧ v = p2 ++ c :: q := by
  induction u generalizing p with
  | nil => exact ⟨p, by simp, by simpa using hx⟩
  | cons d u2 ih =>
      cases p with
      | nil =>
          exfalso
          rw [List.nil_append, List.cons_append] at hx
          injection hx with h1 _
          refine hc ?_
          rw [← h1] at *
          exact List.mem_cons_self d u2
      | cons e p2' =>
          rw [List.cons_append, List.cons_append] at hx
          injection hx with h1 h2
          have hc2 : c ∉ u2 := fun hm => hc (List.mem_cons_of_mem _ hm)
          obtain ⟨p3, hp, hv⟩ := ih h2 hc2
          refine ⟨p3, ?_, hv⟩
          rw [List.cons_append, ← hp, h1]

theorem isNameLine_of_append_quote {p q : List Char}
    (h : isNameLine (p ++ '"' :: q) = true) : isNameLine p = true := by
  obtain ⟨w1, w2, r, hx, hw1, hw2⟩ := isNameLine_decomp h
  have hx2 : (w1 ++ ('n' :: 'a' :: 'm' :: 'e' :: (w2 ++ ['=']))) ++ r = p ++ '"' :: q := by
    rw [hx]
    simp [List.append_assoc]
  have hnotmem : '"' ∉ w1 ++ ('n' :: 'a' :: 'm' :: 'e' :: (w2 ++ ['='])) := by
    intro hm
    rcases List.mem_append.mp hm with h1 | h2
    · exact absurd (hw1 _ h1) (by decide)
    · simp only [List.mem_cons] at h2
      rcases h2 with h3 | h3 | h3 | h3 | h3
      · exact absurd h3 (by decide)
      · exact absurd h3 (by decide)
      · exact absurd h3 (by decide)
      · exact absurd h3 (by decide)
      · rcases List.mem_append.mp h3 with h5 | h6
        · exact absurd (hw2 _ h5) (by decide)
        · exact absurd h6 (by decide)
  obtain ⟨p3, hp, hv⟩ := append_eq_cons_split hx2 hnotmem
  rw [hp]
  have hre : (w1 ++ ('n' :: 'a' :: 'm' :: 'e' :: (w2 ++ ['=']))) ++ p3
      = w1 ++ ('n' :: 'a' :: 'm' :: 'e' :: (w2 ++ '=' :: p3)) := by
    simp [List.append_assoc]
  rw [hre]
  exact isNameLine_rebuild w1 w2 p3 hw1 hw2

theorem scan_step_plain (v : List Char) (f : Nat) (pre : List Char) (c : Char)
    (cs : List Char) (hc : ¬ c = '"') :
    replaceCoreScan v (f + 1) pre (c :: cs)
      = (c :: (replaceCoreScan v f (if c = '\n' then [] else pre ++ [c]) cs).1,
         (replaceCoreScan v f (if c = '\n' then [] else pre ++ [c]) cs).2) := by
  simp only [replaceCoreScan]
  rw [if_neg hc]

theorem scan_step_nokey (v : List Char) (f : Nat) (pre cs : List Char)
    (hs : stripLead coreName cs = none) :
    replaceCoreScan v (f + 1) pre ('"' :: cs)
      = ('"' :: (replaceCoreScan v f (pre ++ ['"']) cs).1,
         (replaceCoreScan v f (pre ++ ['"']) cs).2) := by
  simp only [replaceCoreScan, hs, eq_self_iff_true, if_true]

theorem scan_step_noclose (v : List Char) (f : Nat) (pre cs after : List Char)
    (hs : stripLead coreName cs = some after)
    (hd : after.dropWhile (fun x => !(x = '"')) = []) :
    replaceCoreScan v (f + 1) pre ('"' :: cs)
      = ('"' :: (replaceCoreScan v f (pre ++ ['"']) cs).1,
         (replaceCoreScan v f (pre ++ ['"']) cs).2) := by
  simp only [replaceCoreScan, hs, hd, eq_self_iff_true, if_true]

theorem scan_step_guard (v : List Char) (f : Nat) (pre cs after rest : List Char)
    (hs : stripLead coreName cs = some after)
    (hd : after.dropWhile (fun x => !(x = '"')) = '"' :: rest)
    (hg : isNameLine pre = true) :
    replaceCoreScan v (f + 1) pre ('"' :: cs)
      = ('"' :: (coreName ++ (after.takeWhile (fun x => !(x = '"')) ++ ('"' ::
            (replaceCoreScan v f
              (afterLastNewline (pre ++ ('"' :: (coreName
                ++ (after.takeWhile (fun x => !(x = '"')) ++ ['"']))))) rest).1))),
         (replaceCoreScan v f
            (afterLastNewline (pre ++ ('"' :: (coreName
              ++ (after.takeWhile (fun x => !(x = '"')) ++ ['"']))))) rest).2) := by
  simp only [replaceCoreScan, hs, hd, hg, eq_self_iff_true, if_true]

theorem scan_step_replace (v : List Char) (f : Nat) (pre cs after rest : List Char)
    (hs : stripLead coreName cs = some after)
    (hd : after.dropWhile (fun x => !(x = '"')) = '"' :: rest)
    (hg : isNameLine pre = false) :
    replaceCoreScan v (f + 1) pre ('"' :: cs)
      = (coreReplacement v ++
            (replaceCoreScan v f
              (afterLastNewline (pre ++ ('"' :: (coreName
                ++ (after.takeWhile (fun x => !(x = '"')) ++ ['"']))))) rest).1,
         true) := by
  simp only [replaceCoreScan, hs, hd, eq_self_iff_true, if_true]
  rw [if_neg (by simp [hg])]

theorem mem_list_of_mem_takeWhile {p : Char → Bool} {x : Char} :
    ∀ {l : List Char}, x ∈ l.takeWhile p → x ∈ l := by
  intro l
  induction l with
  | nil => intro h; simp [List.takeWhile] at h
  | cons c cs ih =>
      intro h
      by_cases hc : p c = true
      · rw [List.takeWhile_cons_of_pos hc] at h
        rcases List.mem_cons.mp h with h1 | h2
        · rw [h1]; exact List.mem_cons_self c cs
        · exact List.mem_cons_of_mem c (ih h2)
      · rw [List.takeWhile_cons_of_neg (by simpa using hc)] at h
        simp at h

/-- Scanning a text `a ++ '\n' :: s` whose prefix `a` closes all its
quoted `nodetool-core` openers within itself factors through the
boundary newline: the scan of `s` restarts on a fresh line with enough
fuel left. -/
theorem scan_through (v : List Char) :
    ∀ (fuel : Nat) (a pre s : List Char),
      (∀ x y, a = x ++ ('"' :: coreName) ++ y → '"' ∈ y) →
      a.length + 1 + s.length ≤ fuel →
      ∃ A b fuel2, s.length ≤ fuel2 ∧
        replaceCoreScan v fuel pre (a ++ '\n' :: s)
          = (A ++ '\n' :: (replaceCoreScan v fuel2 [] s).1,
             b || (replaceCoreScan v fuel2 [] s).2) := by
  intro fuel
  induction fuel with
  | zero => intro a pre s _ hlen; omega
  | succ f ih =>
      intro a pre s hcl hlen
      cases a with
      | nil =>
          refine ⟨[], false, f, by simp only [List.length_nil] at hlen; omega, ?_⟩
          rw [List.nil_append, scan_step_plain v f pre '\n' s (by decide)]
          simp
      | cons c a2 =>
          have hcl2 : ∀ x y, a2 = x ++ ('"' :: coreName) ++ y → '"' ∈ y := by
            intro x y hxy
            exact hcl (c :: x) y (by rw [hxy]; simp)
          have hlen2 : a2.length + 1 + s.length ≤ f := by
            simp only [List.length_cons] at hlen; omega
          by_cases hc : c = '"'
          · subst hc
            cases hstrip : stripLead coreName (a2 ++ '\n' :: s) with
            | none =>
                obtain ⟨A, b, fuel2, hf2, heq⟩ := ih a2 (pre ++ ['"']) s hcl2 hlen2
                refine ⟨'"' :: A, b, fuel2, hf2, ?_⟩
                rw [List.cons_append, scan_step_nokey v f pre _ hstrip, heq]
                simp
            | some after =>
                obtain ⟨u2, ha2, hafter⟩ := stripLead_split_newline (by decide) hstrip
                have hquote : '"' ∈ u2 := hcl [] u2 (by rw [ha2]; simp)
                obtain ⟨rest4, hdw4⟩ := dropWhile_not_eq_of_mem hquote
                have hmid : u2 = u2.takeWhile (fun x => !(x = '"')) ++ '"' :: rest4 := by
                  conv_lhs => rw [← List.takeWhile_append_dropWhile
                    (p := fun x => !(x = '"')) (l := u2)]
                  rw [hdw4]
                have hmidall : ∀ x ∈ u2.takeWhile (fun x => !(x = '"')),
                    (fun x => !(x = '"')) x = true :=
                  fun x hx => mem_of_mem_takeWhile hx
                have hsh : after = u2.takeWhile (fun x => !(x = '"'))
                    ++ '"' :: (rest4 ++ '\n' :: s) := by
                  rw [hafter]
                  conv_lhs => rw [hmid]
                  simp [List.append_assoc]
                have hafterdw : after.dropWhile (fun x => !(x = '"'))
                    = '"' :: (rest4 ++ '\n' :: s) := by
                  rw [hsh]
                  exact dropWhile_append_eq _ _ _ hmidall
                    (by intro c t hct; injection hct with h1 _; rw [← h1]; simp)
                have haftertw : after.takeWhile (fun x => !(x = '"'))
                    = u2.takeWhile (fun x => !(x = '"')) := by
                  rw [hsh]
                  exact takeWhile_append_eq _ _ _ hmidall
                    (by intro c t hct; injection hct with h1 _; rw [← h1]; simp)
                have hcl4 : ∀ x y, rest4 = x ++ ('"' :: coreName) ++ y → '"' ∈ y := by
                  intro x y hxy
                  refine hcl ('"' :: (coreName
                    ++ (u2.takeWhile (fun x => !(x = '"')) ++ '"' :: x))) y ?_
                  rw [ha2]
                  conv_lhs => rw [hmid]
                  rw [hxy]
                  simp [List.append_assoc]
                have e1 : a2.length = coreName.length + u2.length := by rw [ha2]; simp
                have e2 : u2.length = (u2.takeWhile (fun x => !(x = '"'))).length
                    + (1 + rest4.length) := by
                  conv_lhs => rw [hmid]
                  simp
                  omega
                have hlen4 : rest4.length + 1 + s.length ≤ f := by
                  simp only [List.length_cons] at hlen
                  omega
                by_cases hg : isNameLine pre = true
                · obtain ⟨A, b, fuel2, hf2, heq⟩ := ih rest4
                    (afterLastNewline (pre ++ ('"' :: (coreName
                      ++ (u2.takeWhile (fun x => !(x = '"')) ++ ['"'])))))
                    s hcl4 hlen4
                  refine ⟨'"' :: (coreName
                    ++ (u2.takeWhile (fun x => !(x = '"')) ++ '"' :: A)), b, fuel2, hf2, ?_⟩
                  rw [List.cons_append,
                    scan_step_guard v f pre _ after (rest4 ++ '\n' :: s) hstrip hafterdw hg,
                    haftertw, heq]
                  simp [List.append_assoc]
                · obtain ⟨A, b, fuel2, hf2, heq⟩ := ih rest4
                    (afterLastNewline (pre ++ ('"' :: (coreName
                      ++ (u2.takeWhile (fun x => !(x = '"')) ++ ['"'])))))
                    s hcl4 hlen4
                  refine ⟨coreReplacement v ++ A, true, fuel2, hf2, ?_⟩
                  rw [List.cons_append,
                    scan_step_replace v f pre _ after (rest4 ++ '\n' :: s) hstrip hafterdw
                      (by simpa using hg),
                    haftertw, heq]
                  simp [List.append_assoc]
          · obtain ⟨A, b, fuel2, hf2, heq⟩ := ih a2
              (if c = '\n' then [] else pre ++ [c]) s hcl2 hlen2
            refine ⟨c :: A, b, fuel2, hf2, ?_⟩
            rw [List.cons_append, scan_step_plain v f pre c _ hc, heq]
            simp

/-- Scanning a name-declaration line emits it verbatim: every match
starting on it is kept by the guard (the line prefix before any match's
quote is itself a `name =` lead), and a match running past the line's
end is emitted unchanged as well. -/
theorem scan_name_line (v : List Char) :
    ∀ (fuel : Nat) (nlDone nlRest t : List Char),
      isNameLine (nlDone ++ nlRest) = true →
      '\n' ∉ nlDone ++ nlRest →
      (t = [] ∨ ∃ b, t = '\n' :: b) →
      nlRest.length + t.length ≤ fuel →
      ∃ R bb, replaceCoreScan v fuel nlDone (nlRest ++ t) = (nlRest ++ R, bb)
        ∧ (R = [] ∨ ∃ R2, R = '\n' :: R2) := by
  intro fuel
  induction fuel with
  | zero =>
      intro nlDone nlRest t _ _ _ hlen
      have h1 : nlRest = [] := List.length_eq_zero.mp (by omega)
      have h2 : t = [] := List.length_eq_zero.mp (by omega)
      subst h1; subst h2
      exact ⟨[], false, by simp [replaceCoreScan], Or.inl rfl⟩
  | succ f ih =>
      intro nlDone nlRest t hname hnn ht hlen
      cases nlRest with
      | nil =>
          rcases ht with rfl | ⟨b, rfl⟩
          · exact ⟨[], false, by simp [replaceCoreScan], Or.inl rfl⟩
          · refine ⟨'\n' :: (replaceCoreScan v f [] b).1,
              (replaceCoreScan v f [] b).2, ?_, Or.inr ⟨_, rfl⟩⟩
            rw [List.nil_append, scan_step_plain v f nlDone '\n' b (by decide)]
            simp
      | cons c rest2 =>
          by_cases hc : c = '"'
          · subst hc
            have hname2 : isNameLine ((nlDone ++ ['"']) ++ rest2) = true := by
              rw [List.append_assoc]
              simpa using hname
            have hnn2 : '\n' ∉ (nlDone ++ ['"']) ++ rest2 := by
              rw [List.append_assoc]
              simpa using hnn
            cases hstrip : stripLead coreName (rest2 ++ t) with
            | none =>
                obtain ⟨R, bb, heq, hR⟩ := ih (nlDone ++ ['"']) rest2 t hname2 hnn2 ht
                  (by simp only [List.length_cons] at hlen; omega)
                refine ⟨R, bb, ?_, hR⟩
                rw [List.cons_append, scan_step_nokey v f nlDone _ hstrip, heq]
                simp
            | some after =>
                rcases ht with rfl | ⟨b, rfl⟩
                · rw [List.append_nil] at hstrip
                  have hr2 : rest2 = coreName ++ after := stripLead_eq_append hstrip
                  by_cases hq : '"' ∈ after
                  · obtain ⟨rest4, hdw4⟩ := dropWhile_not_eq_of_mem hq
                    have hmid : after = after.takeWhile (fun x => !(x = '"'))
                        ++ '"' :: rest4 := by
                      conv_lhs => rw [← List.takeWhile_append_dropWhile
                        (p := fun x => !(x = '"')) (l := after)]
                      rw [hdw4]
                    have hg : isNameLine nlDone = true := isNameLine_of_append_quote hname
                    have hnl2 : '\n' ∉ nlDone ++ ('"' :: (coreName
                        ++ (after.takeWhile (fun x => !(x = '"')) ++ ['"']))) := by
                      intro hm
                      refine hnn ?_
                      rcases List.mem_append.mp hm with h1 | h2
                      · exact List.mem_append_left _ h1
                      · rcases List.mem_cons.mp h2 with h3 | h4
                        · exact absurd h3 (by decide)
                        · refine List.mem_append_right _ (List.mem_cons_of_mem _ ?_)
                          rw [hr2]
                          rcases List.mem_append.mp h4 with h5 | h6
                          · exact List.mem_append_left _ h5
                          · rcases List.mem_append.mp h6 with h7 | h8
                            · exact List.mem_append_right _ (mem_list_of_mem_takeWhile h7)
                            · exact absurd h8 (by decide)
                    have hshape : (nlDone ++ ('"' :: (coreName
                        ++ (after.takeWhile (fun x => !(x = '"')) ++ ['"'])))) ++ rest4
                        = nlDone ++ '"' :: rest2 := by
                      rw [hr2]
                      conv_rhs => rw [hmid]
                      simp [List.append_assoc]
                    have hname4 : isNameLine ((nlDone ++ ('"' :: (coreName
                        ++ (after.takeWhile (fun x => !(x = '"')) ++ ['"'])))) ++ rest4)
                        = true := by rw [hshape]; exact hname
                    have hnn4 : '\n' ∉ (nlDone ++ ('"' :: (coreName
                        ++ (after.takeWhile (fun x => !(x = '"')) ++ ['"'])))) ++ rest4 := by
                      rw [hshape]; exact hnn
                    have e1 : rest2.length = coreName.length + after.length := by
                      rw [hr2]; simp
                    have e2 : after.length = (after.takeWhile (fun x => !(x = '"'))).length
                        + (1 + rest4.length) := by
                      conv_lhs => rw [hmid]
                      simp
                      omega
                    obtain ⟨R, bb, heq, hR⟩ := ih (nlDone ++ ('"' :: (coreName
                        ++ (after.takeWhile (fun x => !(x = '"')) ++ ['"'])))) rest4 []
                      hname4 hnn4 (Or.inl rfl)
                      (by simp only [List.length_cons, List.length_nil] at hlen ⊢; omega)
                    rw [List.append_nil] at heq
                    refine ⟨R, bb, ?_, hR⟩
                    rw [List.append_nil, scan_step_guard v f nlDone rest2 after rest4
                      hstrip hdw4 hg, afterLastNewline_of_not_mem hnl2, heq]
                    rw [hr2]
                    conv_rhs => rw [hmid]
                    simp [List.append_assoc]
                  · have hdwnil : after.dropWhile (fun x => !(x = '"')) = [] :=
                      dropWhile_eq_nil_of_forall _ (fun x hx => by
                        have hne : x ≠ '"' := fun he => hq (he ▸ hx)
                        simp [hne])
                    obtain ⟨R, bb, heq, hR⟩ := ih (nlDone ++ ['"']) rest2 [] hname2 hnn2
                      (Or.inl rfl)
                      (by simp only [List.length_cons, List.length_nil] at hlen ⊢; omega)
                    rw [List.append_nil] at heq
                    refine ⟨R, bb, ?_, hR⟩
                    rw [List.append_nil, scan_step_noclose v f nlDone rest2 after
                      hstrip hdwnil, heq]
                    simp
                · obtain ⟨u2, hr2, hafter⟩ := stripLead_split_newline (by decide) hstrip
                  by_cases hq : '"' ∈ u2
                  · obtain ⟨rest4, hdw4⟩ := dropWhile_not_eq_of_mem hq
                    have hmid : u2 = u2.takeWhile (fun x => !(x = '"')) ++ '"' :: rest4 := by
                      conv_lhs => rw [← List.takeWhile_append_dropWhile
                        (p := fun x => !(x = '"')) (l := u2)]
                      rw [hdw4]
                    have hmidall : ∀ x ∈ u2.takeWhile (fun x => !(x = '"')),
                        (fun x => !(x = '"')) x = true :=
                      fun x hx => mem_of_mem_takeWhile hx
                    have hsh : after = u2.takeWhile (fun x => !(x = '"'))
                        ++ '"' :: (rest4 ++ '\n' :: b) := by
                      rw [hafter]
                      conv_lhs => rw [hmid]
                      simp [List.append_assoc]
                    have hafterdw : after.dropWhile (fun x => !(x = '"'))
                        = '"' :: (rest4 ++ '\n' :: b) := by
                      rw [hsh]
                      exact dropWhile_append_eq _ _ _ hmidall
                        (by intro c t hct; injection hct with h1 _; rw [← h1]; simp)
                    have haftertw : after.takeWhile (fun x => !(x = '"'))
                        = u2.takeWhile (fun x => !(x = '"')) := by
                      rw [hsh]
                      exact takeWhile_append_eq _ _ _ hmidall
                        (by intro c t hct; injection hct with h1 _; rw [← h1]; simp)
                    have hg : isNameLine nlDone = true := isNameLine_of_append_quote hname
                    have hnl2 : '\n' ∉ nlDone ++ ('"' :: (coreName
                        ++ (u2.takeWhile (fun x => !(x = '"')) ++ ['"']))) := by
                      intro hm
                      refine hnn ?_
                      rcases List.mem_append.mp hm with h1 | h2
                      · exact List.mem_append_left _ h1
                      · rcases List.mem_cons.mp h2 with h3 | h4
                        · exact absurd h3 (by decide)
                        · refine List.mem_append_right _ (List.mem_cons_of_mem _ ?_)
                          rw [hr2]
                          rcases List.mem_append.mp h4 with h5 | h6
                          · exact List.mem_append_left _ h5
                          · rcases List.mem_append.mp h6 with h7 | h8
                            · exact List.mem_append_right _ (mem_list_of_mem_takeWhile h7)
                            · exact absurd h8 (by decide)
                    have hshape : (nlDone ++ ('"' :: (coreName
                        ++ (u2.takeWhile (fun x => !(x = '"')) ++ ['"'])))) ++ rest4
                        = nlDone ++ '"' :: rest2 := by
                      rw [hr2]
                      conv_rhs => rw [hmid]
                      simp [List.append_assoc]
                    have hname4 : isNameLine ((nlDone ++ ('"' :: (coreName
                        ++ (u2.takeWhile (fun x => !(x = '"')) ++ ['"'])))) ++ rest4)
                        = true := by rw [hshape]; exact hname
                    have hnn4 : '\n' ∉ (nlDone ++ ('"' :: (coreName
                        ++ (u2.takeWhile (fun x => !(x = '"')) ++ ['"'])))) ++ rest4 := by
                      rw [hshape]; exact hnn
                    have e1 : rest2.length = coreName.length + u2.length := by
                      rw [hr2]; simp
                    have e2 : u2.length = (u2.takeWhile (fun x => !(x = '"'))).length
                        + (1 + rest4.length) := by
                      conv_lhs => rw [hmid]
                      simp
                      omega
                    obtain ⟨R, bb, heq, hR⟩ := ih (nlDone ++ ('"' :: (coreName
                        ++ (u2.takeWhile (fun x => !(x = '"')) ++ ['"'])))) rest4 ('\n' :: b)
                      hname4 hnn4 (Or.inr ⟨b, rfl⟩)
                      (by simp only [List.length_cons] at hlen ⊢; omega)
                    refine ⟨R, bb, ?_, hR⟩
                    rw [List.cons_append, scan_step_guard v f nlDone _ after
                      (rest4 ++ '\n' :: b) hstrip hafterdw hg, haftertw,
                      afterLastNewline_of_not_mem hnl2, heq]
                    rw [hr2]
                    conv_rhs => rw [hmid]
                    simp [List.append_assoc]
                  · have hu2all : ∀ x ∈ u2, (fun x => !(x = '"')) x = true := by
                      intro x hx
                      have hne : x ≠ '"' := fun he => hq (he ▸ hx)
                      simp [hne]
                    have hsplit7 : after.dropWhile (fun x => !(x = '"'))
                        = b.dropWhile (fun x => !(x = '"')) := by
                      rw [hafter, dropWhile_append_all _ _ _ hu2all,
                        List.dropWhile_cons_of_pos (by decide)]
                    have hsplit8 : after.takeWhile (fun x => !(x = '"'))
                        = u2 ++ '\n' :: b.takeWhile (fun x => !(x = '"')) := by
                      rw [hafter, takeWhile_append_all _ _ _ hu2all,
                        List.takeWhile_cons_of_pos (by decide)]
                    cases hbd : b.dropWhile (fun x => !(x = '"')) with
                    | nil =>
                        have hdwnil : after.dropWhile (fun x => !(x = '"')) = [] := by
                          rw [hsplit7, hbd]
                        obtain ⟨R, bb, heq, hR⟩ := ih (nlDone ++ ['"']) rest2 ('\n' :: b)
                          hname2 hnn2 (Or.inr ⟨b, rfl⟩)
                          (by simp only [List.length_cons] at hlen ⊢; omega)
                        refine ⟨R, bb, ?_, hR⟩
                        rw [List.cons_append, scan_step_noclose v f nlDone _ after
                          hstrip hdwnil, heq]
                        simp
                    | cons q rest5 =>
                        have hqq : q = '"' := by
                          have := head_dropWhile_false (fun x => !(x = '"')) hbd
                          simpa using this
                        subst hqq
                        have hdw : after.dropWhile (fun x => !(x = '"')) = '"' :: rest5 := by
                          rw [hsplit7, hbd]
                        have hg : isNameLine nlDone = true := isNameLine_of_append_quote hname
                        refine ⟨'\n' :: (b.takeWhile (fun x => !(x = '"')) ++ '"' ::
                            (replaceCoreScan v f (afterLastNewline (nlDone ++ ('"' :: (coreName
                              ++ (after.takeWhile (fun x => !(x = '"')) ++ ['"'])))))
                              rest5).1),
                          (replaceCoreScan v f (afterLastNewline (nlDone ++ ('"' :: (coreName
                              ++ (after.takeWhile (fun x => !(x = '"')) ++ ['"'])))))
                              rest5).2,
                          ?_, Or.inr ⟨_, rfl⟩⟩
                        rw [List.cons_append, scan_step_guard v f nlDone _ after rest5
                          hstrip hdw hg, hsplit8, hr2]
                        simp [List.append_assoc]
          · have hcn : ¬ c = '\n' := by
              intro he
              subst he
              exact hnn (List.mem_append_right _ (List.mem_cons_self _ _))
            have hname2 : isNameLine ((nlDone ++ [c]) ++ rest2) = true := by
              rw [List.append_assoc]
              simpa using hname
            have hnn2 : '\n' ∉ (nlDone ++ [c]) ++ rest2 := by
              rw [List.append_assoc]
              simpa using hnn
            obtain ⟨R, bb, heq, hR⟩ := ih (nlDone ++ [c]) rest2 t hname2 hnn2 ht
              (by simp only [List.length_cons] at hlen; omega)
            refine ⟨R, bb, ?_, hR⟩
            rw [List.cons_append, scan_step_plain v f nlDone c _ hc, if_neg hcn, heq]
            simp

/-- C4 (amended): provided every quoted `nodetool-core` opener in the
text before the declaration closes within that preceding text (in
particular whenever every specifier closes on the line it starts), a
newline-delimited `name = "..."` declaration line survives the
dependency-pin patch as a full line of the output, unchanged — even
when its quoted value textually contains `nodetool-core`.  The
counterexample shows the proviso is necessary: an opener of the
preceding text left unclosed makes `[^"]*` run across the newline and
swallow the declaration line. -/
theorem update_core_dep_keeps_closed_name_lines (version a nl t : List Char)
    (ha : closesWithinB a = true) (hnl : isNameLine nl = true) (hn : '\n' ∉ nl)
    (ht : t = [] ∨ ∃ b, t = '\n' :: b) :
    ∃ A R, (update_nodetool_core_dependency (a ++ '\n' :: (nl ++ t)) version).1
        = A ++ '\n' :: (nl ++ R)
      ∧ (R = [] ∨ ∃ R2, R = '\n' :: R2) := by
  have hcases : (update_nodetool_core_dependency (a ++ '\n' :: (nl ++ t)) version).1
        = a ++ '\n' :: (nl ++ t)
      ∨ (update_nodetool_core_dependency (a ++ '\n' :: (nl ++ t)) version).1
        = (replaceCoreScan version (a ++ '\n' :: (nl ++ t)).length []
            (a ++ '\n' :: (nl ++ t))).1 := by
    unfold update_nodetool_core_dependency
    split
    · exact Or.inl rfl
    · split
      · exact Or.inr rfl
      · exact Or.inl rfl
  rcases hcases with hres | hres
  · exact ⟨a, t, by rw [hres], ht⟩
  · obtain ⟨A, b, fuel2, hf2, heq⟩ := scan_through version
      (a ++ '\n' :: (nl ++ t)).length a [] (nl ++ t)
      (fun x y hxy => closesWithinB_spec x y (by rw [← hxy]; exact ha))
      (by simp only [List.length_append, List.length_cons]; omega)
    obtain ⟨R, bb, heqB, hR⟩ := scan_name_line version fuel2 [] nl t
      (by simpa using hnl) (by simpa using hn) ht
      (by simp only [List.length_append] at hf2; omega)
    refine ⟨A, R, ?_, hR⟩
    rw [hres, heq, heqB]

theorem update_core_dep_keeps_closed_name_lines_witness :
    ∃ A R, (update_nodetool_core_dependency
        ("x = \"nodetool-core>=0.1\"".toList
          ++ '\n' :: ("name = \"nodetool-core-extra\"".toList ++ [])) "1.2.3".toList).1
        = A ++ '\n' :: ("name = \"nodetool-core-extra\"".toList ++ R)
      ∧ (R = [] ∨ ∃ R2, R = '\n' :: R2) :=
  update_core_dep_keeps_closed_name_lines "1.2.3".toList
    "x = \"nodetool-core>=0.1\"".toList "name = \"nodetool-core-extra\"".toList []
    (by decide) (by decide) (by decide) (Or.inl rfl)

/-! ### Function `parse_version` (registry_utils.py lines 166-173)

Python:
```
def parse_version(tag_name):
    try:
        version_str = tag_name.lstrip('v').split('-')[0]
        return version.parse(version_str)
    except Exception:
        return None
```
`packaging.version.parse` is modelled on the numeric dotted-release
fragment of PEP 440 (`N(.N)*`), the only form the registry's tags use;
anything outside that fragment parses to `none`, matching the
`except Exception: return None` of the source.  The try/except is the
`Option` result: the embedding never fails, it returns `none`. -/

/-- Embeds `tag_name.lstrip('v').split('-')[0]`. -/
def stripTag (tag : List Char) : List Char :=
  (tag.dropWhile (fun c => c = 'v')).takeWhile (fun c => !(c = '-'))

def parseNat? (s : List Char) : Option Nat :=
  if s = [] then none
  else if s.all (fun c => c.isDigit) then
    some (s.foldl (fun acc c => acc * 10 + (c.toNat - '0'.toNat)) 0)
  else none

def splitOnDot : List Char → List (List Char)
  | [] => [[]]
  | c :: cs =>
    if c = '.' then [] :: splitOnDot cs
    else
      match splitOnDot cs with
      | [] => [[c]]
      | h :: t => (c :: h) :: t

/-- The release segment of a PEP 440 version: every dot-separated
component numeric. -/
def parseRelease (s : List Char) : Option (List Nat) :=
  (splitOnDot s).mapM parseNat?

def parse_version (tag : List Char) : Option (List Nat) :=
  parseRelease (stripTag tag)

def padZeros (n : Nat) (l : List Nat) : List Nat := l ++ List.replicate (n - l.length) 0

def listNatLt : List Nat → List Nat → Bool
  | [], _ => false
  | _ :: _, [] => false
  | a :: as, b :: bs => decide (a < b) || (decide (a = b) && listNatLt as bs)

/-- PEP 440 release-segment comparison: componentwise, the shorter side
padded with zeros (so `1.0` and `1.0.0` are equal). -/
def releaseLt (a b : List Nat) : Bool :=
  listNatLt (padZeros (max a.length b.length) a) (padZeros (max a.length b.length) b)

example : parse_version "v1.0.0".toList = some [1, 0, 0] := by decide
example : parse_version "v1.0.0-rc1".toList = some [1, 0, 0] := by decide
example : parse_version "main".toList = none := by decide

theorem dropWhile_append_split (q : Char → Bool) :
    ∀ (a b : List Char), (a ++ b).dropWhile q
      = if a.dropWhile q = [] then b.dropWhile q else a.dropWhile q ++ b := by
  intro a
  induction a with
  | nil => intro b; simp [List.dropWhile]
  | cons x xs ih =>
      intro b
      by_cases hx : q x = true
      · rw [List.cons_append, List.dropWhile_cons_of_pos hx,
          List.dropWhile_cons_of_pos hx, ih]
      · rw [List.cons_append, List.dropWhile_cons_of_neg (by simpa using hx),
          List.dropWhile_cons_of_neg (by simpa using hx)]
        simp

/-- C10: everything from the first `-` onward is discarded before
parsing, so a tag `X-suffix` parses exactly as `X` does. -/
theorem parse_version_drops_suffix (X s : List Char) (h : '-' ∉ X) :
    parse_version (X ++ '-' :: s) = parse_version X := by
  unfold parse_version
  congr 1
  unfold stripTag
  rw [dropWhile_append_split]
  by_cases hX : X.dropWhile (fun c => c = 'v') = []
  · rw [if_pos hX, hX]
    rw [List.dropWhile_cons_of_neg (by simp)]
    rw [List.takeWhile_cons_of_neg (by simp)]
    simp [List.takeWhile]
  · rw [if_neg hX]
    obtain ⟨d, ds, hd⟩ : ∃ d ds, X.dropWhile (fun c => c = 'v') = d :: ds := by
      cases hXd : X.dropWhile (fun c => c = 'v') with
      | nil => exact absurd hXd hX
      | cons d ds => exact ⟨d, ds, rfl⟩
    rw [hd]
    have hmem : ∀ c ∈ d :: ds, (!(c = '-')) = true := by
      intro c hc
      have hcX : c ∈ X := mem_of_mem_dropWhile (hd ▸ hc)
      have : c ≠ '-' := fun he => h (he ▸ hcX)
      simp [this]
    have h1 : ((d :: ds) ++ '-' :: s).takeWhile (fun c => !(c = '-')) = d :: ds :=
      takeWhile_append_eq _ _ _ hmem (by intro c t hct; injection hct with hc; rw [← hc]; simp)
    have h2 : (d :: ds).takeWhile (fun c => !(c = '-')) = d :: ds := by
      have := takeWhile_append_eq (fun c => !(c = '-')) (d :: ds) [] hmem
        (by intro c t hct; simp at hct)
      simpa using this
    rw [h1, h2]

theorem parse_version_drops_suffix_witness :
    parse_version ("v1.0.0".toList ++ '-' :: "rc1".toList)
      = parse_version "v1.0.0".toList :=
  parse_version_drops_suffix "v1.0.0".toList "rc1".toList (by decide)

/-! ### Method `NodeToolRegistryBuilder.generate_package_page` (build_index.py lines 114-191)

Python (selection and ordering only; the metadata probes and HTML
attributes are derived per collected wheel and do not change which
wheels appear or their order — the page emits one `<a>` line per entry
of `wheels`, in list order):
```
valid_releases = []
for release in releases:
    if release.get("draft") or release.get("prerelease"): continue
    v = parse_version(release["tag_name"])
    if v: valid_releases.append((v, release))
valid_releases.sort(key=lambda x: x[0], reverse=True)
wheels = []
for v, release in valid_releases:
    for asset in release.get("assets", []):
        if asset["name"].endswith(".whl"):
            if wheel_filter and wheel_filter not in asset["name"]: continue
            ... wheels.append(metadata)
```
-/

structure Asset where
  name : List Char
  url : List Char
deriving DecidableEq

structure Release where
  draft : Bool
  prerelease : Bool
  tag_name : List Char
  assets : List Asset
deriving DecidableEq

/-- Drop drafts, prereleases and unparseable tags, pairing the rest with
their parsed versions. -/
def valid_releases (rs : List Release) : List (List Nat × Release) :=
  rs.filterMap (fun r =>
    if r.draft || r.prerelease then none
    else
      match parse_version r.tag_name with
      | some v => some (v, r)
      | none => none)

def insertDescBy (x : List Nat × Release) : List (List Nat × Release) → List (List Nat × Release)
  | [] => [x]
  | y :: ys => if releaseLt y.1 x.1 then x :: y :: ys else y :: insertDescBy x ys

/-- Embeds `valid_releases.sort(key=lambda x: x[0], reverse=True)`: stable sort,
newest version first. -/
def sortDesc (l : List (List Nat × Release)) : List (List Nat × Release) :=
  l.foldl (fun acc x => insertDescBy x acc) []

/-- Embeds `asset["name"].endswith(".whl")`. -/
def endsWithWhl (n : List Char) : Bool :=
  (stripLead ['l', 'h', 'w', '.'] n.reverse).isSome

/-- Wheel assets of one release, as (filename, download url), restricted
by the optional substring `wheel_filter`. -/
def wheelAssets (wf : Option (List Char)) (r : Release) : List (List Char × List Char) :=
  r.assets.filterMap (fun a =>
    if endsWithWhl a.name then
      match wf with
      | some f => if containsSub f a.name then some (a.name, a.url) else none
      | none => some (a.name, a.url)
    else none)

/-- The `wheels` list collected by `generate_package_page`: assets of the
filtered releases, newest release first. -/
def collectWheels (rs : List Release) (wf : Option (List Char)) :
    List (List Char × List Char) :=
  ((sortDesc (valid_releases rs)).map (fun p => wheelAssets wf p.2)).flatten

/-- C5 scenario: releases `v1.0.0` and `v1.1.0` with one wheel each, and
a prerelease `v2.0.0-rc1`. -/
def relOne : Release :=
  { draft := false, prerelease := false, tag_name := "v1.0.0".toList,
    assets := [{ name := "demo-1.0.0-py3-none-any.whl".toList, url := "https://ex/a1".toList }] }

def relTwo : Release :=
  { draft := false, prerelease := false, tag_name := "v1.1.0".toList,
    assets := [{ name := "demo-1.1.0-py3-none-any.whl".toList, url := "https://ex/a2".toList }] }

def relRc : Release :=
  { draft := false, prerelease := true, tag_name := "v2.0.0-rc1".toList,
    assets := [{ name := "demo-2.0.0rc1-py3-none-any.whl".toList, url := "https://ex/a3".toList }] }

/-- C5: the generated page lists exactly the two non-prerelease wheels,
the `v1.1.0` wheel before the `v1.0.0` wheel. -/
theorem index_page_two_wheels_sorted :
    collectWheels [relOne, relTwo, relRc] none
      = [("demo-1.1.0-py3-none-any.whl".toList, "https://ex/a2".toList),
         ("demo-1.0.0-py3-none-any.whl".toList, "https://ex/a1".toList)] := by
  decide

/-! ### Workflow poller (release.py lines 484-561)

`gh run list` / `gh release view` results are passed in explicitly:
`runs?` is `none` when the query fails (subprocess error or unparseable
JSON), otherwise the parsed run list; `releaseExists` is whether
`gh release view <tag>` exits 0.  Status codes follow the source:
0 = succeeded, 1 = pending, 2 = failed/cancelled. -/

structure WorkflowRun where
  databaseId : Nat
  status : String
  conclusion : String
  headBranch : String
  workflowName : String
deriving DecidableEq

def RELEASE_WORKFLOWS : List String := ["Build and Publish Wheel", "Release"]

/-- Embeds `get_release_run`: first listed run whose branch equals the tag and
whose workflow is a release workflow; the boolean is the `ok` flag
(false exactly when the query itself failed). -/
def get_release_run (runs? : Option (List WorkflowRun)) (tag : String) :
    Option WorkflowRun × Bool :=
  match runs? with
  | none => (none, false)
  | some runs =>
    match runs.find? (fun r => r.headBranch == tag
        && RELEASE_WORKFLOWS.contains r.workflowName) with
    | some r => (some r, true)
    | none => (none, true)

/-- Embeds `check_workflow_completed` (release.py lines 533-561). -/
def check_workflow_completed (runs? : Option (List WorkflowRun)) (tag : String)
    (releaseExists : Bool) : Nat :=
  match get_release_run runs? tag with
  | (_, false) => if releaseExists then 0 else 1
  | (none, true) => if releaseExists then 0 else 1
  | (some run, true) =>
    if run.status == "completed" then
      if run.conclusion == "success" then 0
      else if run.conclusion == "failure" || run.conclusion == "cancelled" then 2
      else 0
    else 1

/-- C6: when the run-list query itself fails, the check falls back to the
release object: 0 (succeeded) if it exists, 1 (pending) otherwise, and
never 2 (failed). -/
theorem query_failure_falls_back (tag : String) (releaseExists : Bool) :
    check_workflow_completed none tag releaseExists
      = (if releaseExists then 0 else 1)
    ∧ check_workflow_completed none tag releaseExists ≠ 2 := by
  cases releaseExists <;> simp [check_workflow_completed, get_release_run]

/-- C9: a completed run whose conclusion is neither success, failure nor
cancelled (e.g. skipped) is reported as succeeded (0). -/
theorem completed_other_conclusion_succeeds (runs : List WorkflowRun) (tag : String)
    (releaseExists : Bool) (r : WorkflowRun)
    (hfind : (get_release_run (some runs) tag).1 = some r)
    (hst : r.status = "completed")
    (h1 : r.conclusion ≠ "success") (h2 : r.conclusion ≠ "failure")
    (h3 : r.conclusion ≠ "cancelled") :
    check_workflow_completed (some runs) tag releaseExists = 0 := by
  cases hf : runs.find? (fun w => w.headBranch == tag
      && RELEASE_WORKFLOWS.contains w.workflowName) with
  | none =>
      exfalso
      have hgr : get_release_run (some runs) tag = (none, true) := by
        show (match runs.find? (fun w => w.headBranch == tag
            && RELEASE_WORKFLOWS.contains w.workflowName) with
          | some w => (some w, true)
          | none => (none, true)) = ((none : Option WorkflowRun), true)
        rw [hf]
      rw [hgr] at hfind
      simp at hfind
  | some x =>
      have hgr : get_release_run (some runs) tag = (some x, true) := by
        show (match runs.find? (fun w => w.headBranch == tag
            && RELEASE_WORKFLOWS.contains w.workflowName) with
          | some w => (some w, true)
          | none => (none, true)) = (some x, true)
        rw [hf]
      rw [hgr] at hfind
      injection hfind with hx
      unfold check_workflow_completed
      rw [hgr, hx]
      simp [hst, h1, h2, h3]

def demoRun : WorkflowRun :=
  { databaseId := 7, status := "completed", conclusion := "skipped",
    headBranch := "v1.2.3", workflowName := "Release" }

theorem completed_other_conclusion_succeeds_witness :
    check_workflow_completed (some [demoRun]) "v1.2.3" false = 0 :=
  completed_other_conclusion_succeeds [demoRun] "v1.2.3" false demoRun
    (by decide) rfl (by decide) (by decide) (by decide)

/-! ### Function `wait_for_repos` (release.py lines 736-776)

The per-poll result of `check_workflow_completed` for each repository is
abstracted as `env k repo` (k-th pass), and `dirs repo` is whether the
repository directory exists (missing directories are skipped).  The
`trace` accumulates one entry per `print_workflow_logs` call, guarded by
the `logged_failures` seen-set.  The loop runs while
`elapsed < MAX_WAIT` and adds `POLL_INTERVAL` after every pass, i.e. at
most `MAX_WAIT / POLL_INTERVAL = 60` passes; exhausting them is the
timeout exit. -/

def MAX_WAIT : Nat := 1800

def POLL_INTERVAL : Nat := 30

inductive WaitOutcome
  /-- Case where `wait_for_repos` returned normally. -/
  | done
  /-- Case `sys.exit(1)` from the `all_completed and any_failed` branch. -/
  | failExit
  /-- Case `sys.exit(1)` from the timeout at the end. -/
  | timeoutExit
deriving DecidableEq

/-- One pass of the `for repo in repos_to_wait` body, threading
`all_completed`, `any_failed`, the `logged_failures` set and the trace
of log fetches. -/
def poll_pass (envk : String → Nat) (dirs : String → Bool) :
    List String → Bool → Bool → List String → List String →
    Bool × Bool × List String × List String
  | [], allC, anyF, logged, trace => (allC, anyF, logged, trace)
  | repo :: rest, allC, anyF, logged, trace =>
    if !(dirs repo) then poll_pass envk dirs rest allC anyF logged trace
    else if envk repo = 0 then poll_pass envk dirs rest allC anyF logged trace
    else if envk repo = 2 then
      if repo ∈ logged then poll_pass envk dirs rest false true logged trace
      else poll_pass envk dirs rest false true (logged ++ [repo]) (trace ++ [repo])
    else poll_pass envk dirs rest false anyF logged trace

/-- The `while elapsed < MAX_WAIT` loop, with the remaining number of
passes as fuel; fuel 0 is the timeout exit. -/
def wait_loop (env : Nat → String → Nat) (dirs : String → Bool) (repos : List String) :
    Nat → Nat → List String → List String → WaitOutcome × List String
  | 0, _, _, trace => (.timeoutExit, trace)
  | fuel + 1, k, logged, trace =>
    if (poll_pass (env k) dirs repos true false logged trace).1 then
      ((if (poll_pass (env k) dirs repos true false logged trace).2.1 then .failExit else .done),
        (poll_pass (env k) dirs repos true false logged trace).2.2.2)
    else
      wait_loop env dirs repos fuel (k + 1)
        (poll_pass (env k) dirs repos true false logged trace).2.2.1
        (poll_pass (env k) dirs repos true false logged trace).2.2.2

/-- Embeds `wait_for_repos`: outcome and trace of log fetches. -/
def wait_for_repos (env : Nat → String → Nat) (dirs : String → Bool)
    (repos : List String) : WaitOutcome × List String :=
  wait_loop env dirs repos (MAX_WAIT / POLL_INTERVAL) 0 [] []

theorem poll_pass_count (envk : String → Nat) (dirs : String → Bool) :
    ∀ (repos : List String) (aC aF : Bool) (logged trace : List String),
      (∀ r, trace.count r ≤ (if r ∈ logged then 1 else 0)) →
      ∀ r, ((poll_pass envk dirs repos aC aF logged trace).2.2.2).count r
            ≤ (if r ∈ (poll_pass envk dirs repos aC aF logged trace).2.2.1 then 1 else 0) := by
  intro repos
  induction repos with
  | nil => intro aC aF logged trace hinv r; exact hinv r
  | cons repo rest ih =>
      intro aC aF logged trace hinv r
      simp only [poll_pass]
      split
      · exact ih aC aF logged trace hinv r
      · split
        · exact ih aC aF logged trace hinv r
        · split
          · split
            · exact ih false true logged trace hinv r
            · rename_i hmem
              refine ih false true (logged ++ [repo]) (trace ++ [repo]) ?_ r
              intro q
              rw [List.count_append]
              by_cases hq : q = repo
              · subst hq
                have h0 : trace.count q = 0 := by
                  have := hinv q
                  rw [if_neg hmem] at this
                  omega
                simp [h0, List.mem_append]
              · have hq2 : [repo].count q = 0 := by
                  simp [List.count_singleton]
                  exact fun h => hq h.symm
                rw [hq2, Nat.add_zero]
                have := hinv q
                by_cases hql : q ∈ logged
                · rw [if_pos hql] at this
                  rw [if_pos (List.mem_append.mpr (Or.inl hql))]
                  exact this
                · rw [if_neg hql] at this
                  rw [if_neg ?_]
                  · exact this
                  · intro hcon
                    rcases List.mem_append.mp hcon with hl | hr
                    · exact hql hl
                    · simp at hr
                      exact hq hr
          · exact ih false aF logged trace hinv r

theorem wait_loop_count (env : Nat → String → Nat) (dirs : String → Bool)
    (repos : List String) :
    ∀ (fuel k : Nat) (logged trace : List String),
      (∀ r, trace.count r ≤ (if r ∈ logged then 1 else 0)) →
      ∀ r, ((wait_loop env dirs repos fuel k logged trace).2).count r ≤ 1 := by
  intro fuel
  induction fuel with
  | zero =>
      intro k logged trace hinv r
      have := hinv r
      split at this <;> simp [wait_loop] <;> omega
  | succ fuel ih =>
      intro k logged trace hinv r
      simp only [wait_loop]
      have hp := poll_pass_count (env k) dirs repos true false logged trace hinv
      split
      · have := hp r
        split at this <;> simp <;> omega
      · exact ih (k + 1) _ _ hp r

/-- C3: across the whole poll loop, each repository's workflow log is
fetched and printed at most once, however many polls observe it as
failed — the `logged_failures` seen-set deduplicates the fetches. -/
theorem wait_logs_at_most_once (env : Nat → String → Nat) (dirs : String → Bool)
    (repos : List String) (r : String) :
    ((wait_for_repos env dirs repos).2).count r ≤ 1 := by
  refine wait_loop_count env dirs repos (MAX_WAIT / POLL_INTERVAL) 0 [] [] ?_ r
  intro q
  simp

/-- C2 (behaviour at the failing input): with a single waited-on
repository whose check returns 2 (failed/cancelled) on every poll, the
loop never takes the early `all_completed` exit: it runs all
`MAX_WAIT / POLL_INTERVAL = 60` passes and leaves through the timeout
branch, fetching the log once.  A failed repository sets
`all_completed = False`, so the `sys.exit(1)` guarded by
`all_completed and any_failed` is unreachable. -/
theorem wait_for_repos_failed_runs_out_budget :
    wait_for_repos (fun _ _ => 2) (fun _ => true) ["nodetool-core"]
      = (.timeoutExit, ["nodetool-core"]) := by
  decide

/-! ### Function `process_repo` (release.py lines 569-733)

Control-flow skeleton of one repository's processing.  The booleans
stand for the outcomes of the externally observable steps: whether the
repository directory exists and is a git checkout, whether the version
patchers changed any file (`files_updated`), and whether `git commit`
resp. `git push origin main` exited 0.  The result is the ordered list
of side-effecting steps the function performs. -/

inductive RepoStep
  | printDiag
  | stageFiles
  | commitStep
  | pushMain
  | tagCreate
  | tagPush
deriving DecidableEq

/-- Embeds `process_repo`, as the sequence of steps it performs.  Mirrors the
source: the initial diagnostics, then — when files changed — stage,
commit, push (a failed push prints diagnostics and returns, skipping the
tag steps; a failed commit just falls through to tagging), then the forced
tag creation and tag push. -/
def process_repo (dirOk gitOk filesUpdated commitOk pushOk : Bool) : List RepoStep :=
  if !dirOk then []
  else if !gitOk then []
  else
    RepoStep.printDiag ::
      (if filesUpdated then
        if commitOk then
          if pushOk then
            [RepoStep.stageFiles, RepoStep.commitStep, RepoStep.pushMain,
             RepoStep.tagCreate, RepoStep.tagPush]
          else
            [RepoStep.stageFiles, RepoStep.commitStep, RepoStep.pushMain,
             RepoStep.printDiag]
        else [RepoStep.stageFiles, RepoStep.commitStep, RepoStep.tagCreate, RepoStep.tagPush]
      else [RepoStep.tagCreate, RepoStep.tagPush])

/-- C7: when the push of the version-bump commit fails, processing of
that repository stops there — the diagnostics are printed after the
failed push, and neither the tag creation nor the tag push happens. -/
theorem push_failure_skips_tagging :
    process_repo true true true true false
      = [RepoStep.printDiag, RepoStep.stageFiles, RepoStep.commitStep,
         RepoStep.pushMain, RepoStep.printDiag]
    ∧ RepoStep.tagCreate ∉ process_repo true true true true false
    ∧ RepoStep.tagPush ∉ process_repo true true true true false := by
  decide

/-! ### The version-tag gate in `main` (release.py lines 812-820)

`main` warns when the tag does not start with `v`, prompts, and exits
with status 1 unless the lowered response is `y` or `yes`; only then
does it continue (all file and git mutation happens strictly later, in
the `process_repo` calls).  `version = version_tag[1:]` in either
continue path. -/

/-- ASCII `str.lower` (tags and prompt responses are ASCII). -/
def toLowerAscii (c : Char) : Char :=
  if 'A' ≤ c && c ≤ 'Z' then Char.ofNat (c.toNat + 32) else c

def lowerStr (s : List Char) : List Char := s.map toLowerAscii

def startsWithVee : List Char → Bool
  | 'v' :: _ => true
  | _ => false

inductive MainStart
  /-- Case `sys.exit(1)` before any repository is touched. -/
  | exitOne
  /-- continue into the release process with `version = version_tag[1:]`. -/
  | proceed (version : List Char)
deriving DecidableEq

/-- The prefix of `main` up to the computation of `version`. -/
def main_start (version_tag response : List Char) : MainStart :=
  if startsWithVee version_tag then .proceed (version_tag.drop 1)
  else if lowerStr response = ['y'] ∨ lowerStr response = ['y', 'e', 's'] then
    .proceed (version_tag.drop 1)
  else .exitOne

/-- C8: a version tag without a leading `v` together with a
non-affirmative response makes `main` exit with status 1 before any
mutation (the exit happens before any `process_repo` call). -/
theorem bad_tag_decline_exits (version_tag response : List Char)
    (hv : startsWithVee version_tag = false)
    (h1 : lowerStr response ≠ ['y'])
    (h2 : lowerStr response ≠ ['y', 'e', 's']) :
    main_start version_tag response = .exitOne := by
  unfold main_start
  rw [if_neg (by simp [hv])]
  rw [if_neg (by simp [h1, h2])]

theorem bad_tag_decline_exits_witness :
    main_start "1.2.3".toList "n".toList = .exitOne :=
  bad_tag_decline_exits "1.2.3".toList "n".toList (by decide) (by decide) (by decide)

/-! ### C1: double application of the patch functions -/

/-- C1 counterexample: `update_pyproject_version` returns `count > 0`
without comparing the new text with the old, so the second application
with the same version leaves the content identical but still reports a
change (`true`), contradicting the claim that the second call returns
`false`. -/
theorem pyproject_second_call_reports_change :
    (update_pyproject_version
        (update_pyproject_version ["version = \"0.1.0\"".toList] "1.2.3".toList).1
        "1.2.3".toList).2 = true := by
  decide

/-- C1 (amended): for target versions/tags made of ordinary characters
(nonempty; no quote in the version, no whitespace in the tag, no newline
or backslash in either — the characters the regex replacement machinery
treats specially), a second application with the same target returns the
file content of the first application unchanged.
`update_copilot_core_ref` additionally reports `false` (no change) on
the second call, while `update_pyproject_version` reports exactly what
the first call reported, because its result is whether the pattern
matched, not whether the text changed.  (The newline/backslash
hypotheses only delimit the domain on which the per-line embedding is
faithful to the Python regexes; the Lean proof does not otherwise use
them.) -/
theorem patchers_second_call (lines : List (List Char)) (version tag : List Char)
    (hv0 : version ≠ []) (hv1 : '"' ∉ version)
    (hv2 : '\n' ∉ version) (hv3 : '\\' ∉ version)
    (ht0 : tag ≠ []) (ht1 : ∀ c ∈ tag, isPySpace c = false)
    (ht2 : '\n' ∉ tag) (ht3 : '\\' ∉ tag) :
    update_pyproject_version (update_pyproject_version lines version).1 version
      = update_pyproject_version lines version
    ∧ update_copilot_core_ref (update_copilot_core_ref lines tag).1 tag
      = ((update_copilot_core_ref lines tag).1, false) :=
  ⟨update_pyproject_twice lines version hv0 hv1, update_copilot_twice lines tag ht0 ht1⟩

/-- Demonstration content for C1: a pyproject version field and a
copilot workflow `NODETOOL_CORE_REF` line. -/
def patchDemoLines : List (List Char) :=
  ["version = \"0.1.0\"".toList, "    NODETOOL_CORE_REF: v0.1.0".toList]

theorem patchers_second_call_witness :
    update_pyproject_version
        (update_pyproject_version patchDemoLines "1.2.3".toList).1 "1.2.3".toList
      = update_pyproject_version patchDemoLines "1.2.3".toList
    ∧ update_copilot_core_ref
        (update_copilot_core_ref patchDemoLines "v1.2.3".toList).1 "v1.2.3".toList
      = ((update_copilot_core_ref patchDemoLines "v1.2.3".toList).1, false) :=
  patchers_second_call patchDemoLines "1.2.3".toList "v1.2.3".toList
    (by decide) (by decide) (by decide) (by decide)
    (by decide) (by decide) (by decide) (by decide)

end NodetoolRegistry
